import Mathlib

/-!
Shallow embedding of the inverted-index search engine
(`indexer.py` and `search.py`) and proofs about it.

Conventions of the embedding:
* Python `int` is modelled by `Int` (arbitrary precision in Python as well).
* Python dictionaries keyed by `doc_id` are modelled by association lists
  `List (Int × Int)` built with an upsert operation, which preserves both the
  key-uniqueness and the insertion order of a Python `dict`.
* Raising an uncaught exception is modelled by `Except`.
* Floating point arithmetic of the scoring code is modelled by real numbers,
  with Python's `math.log` as `Real.log`.
* `PorterStemmer.stem` is an external dependency; it is modelled as an
  opaque pure function parameter `stem : String → String`.
-/

/-- `True` for exactly the characters matched by the regex class
`[a-zA-Z0-9]` used by both `tokenize` implementations. -/
def isAlnumChar (c : Char) : Bool :=
  ('a' ≤ c && c ≤ 'z') || ('A' ≤ c && c ≤ 'Z') || ('0' ≤ c && c ≤ '9')

namespace Idx

/-- Worker for `Idx.tokenize`: scans the character list left to right,
accumulating the current maximal alphanumeric run in `cur` (reversed) and
flushing it at each separator, exactly like `re.findall(r"[a-zA-Z0-9]+", ...)`
in `indexer.py`. -/
def tokenizeAux : List Char → List Char → List String
  | [], cur => if cur.isEmpty then [] else [String.mk cur.reverse]
  | c :: rest, cur =>
    if isAlnumChar c then tokenizeAux rest (c :: cur)
    else if cur.isEmpty then tokenizeAux rest []
    else String.mk cur.reverse :: tokenizeAux rest []

/-- `indexer.py` `tokenize`: lowercase the text, then extract the maximal runs
of characters in `[a-zA-Z0-9]`.  (Python's `str.lower` and Lean's
`Char.toLower` agree on ASCII; non-ASCII characters are separators for the
regex either way.) -/
def tokenize (text : String) : List String :=
  tokenizeAux (text.data.map Char.toLower) []

/-- `indexer.py` `stem_tokens`: starts from an empty result list and appends
`stemmer.stem token` for each token, in order. -/
def stem_tokens (stem : String → String) (tokens : List String) : List String :=
  tokens.foldl (fun result token => result ++ [stem token]) []

end Idx

namespace Srch

/-- Worker for `Srch.tokenize`; same scanning loop as `Idx.tokenizeAux`,
embedded separately because `search.py` carries its own copy of the code. -/
def tokenizeAux : List Char → List Char → List String
  | [], cur => if cur.isEmpty then [] else [String.mk cur.reverse]
  | c :: rest, cur =>
    if isAlnumChar c then tokenizeAux rest (c :: cur)
    else if cur.isEmpty then tokenizeAux rest []
    else String.mk cur.reverse :: tokenizeAux rest []

/-- `search.py` `tokenize`: identical text of `indexer.py`'s `tokenize`. -/
def tokenize (text : String) : List String :=
  tokenizeAux (text.data.map Char.toLower) []

/-- `search.py` `stem_tokens`: the list comprehension
`[stemmer.stem(token) for token in tokens]`. -/
def stem_tokens (stem : String → String) (tokens : List String) : List String :=
  tokens.map stem

/-- `search.py` `normalize_query`: tokenize then stem. -/
def normalize_query (stem : String → String) (query : String) : List String :=
  stem_tokens stem (tokenize query)

end Srch

/-! ### Line-oriented postings parsing (`indexer.py` merge loop, `search.py` `parse_postings_line`) -/

/-- Python `str.strip()`: drop leading and trailing whitespace. -/
def strip (s : String) : String :=
  String.mk (((s.data.dropWhile Char.isWhitespace).reverse.dropWhile Char.isWhitespace).reverse)

/-- Python `":" in line` (checked on the raw line in both loaders). -/
def containsColon (line : String) : Bool := line.data.contains ':'

/-- First component of Python `s.split(":", 1)`: everything before the first
colon. -/
def beforeColon (s : String) : String := String.mk (s.data.takeWhile (· ≠ ':'))

/-- Second component of Python `s.split(":", 1)`: everything after the first
colon (meaningful only when a colon is present, which both callers check). -/
def afterColon (s : String) : String := String.mk ((s.data.dropWhile (· ≠ ':')).drop 1)

/-- Worker for `pywords`: accumulate maximal runs of non-whitespace. -/
def wordsAux : List Char → List Char → List String
  | [], cur => if cur.isEmpty then [] else [String.mk cur.reverse]
  | c :: rest, cur =>
    if c.isWhitespace then
      if cur.isEmpty then wordsAux rest [] else String.mk cur.reverse :: wordsAux rest []
    else wordsAux rest (c :: cur)

/-- Python `s.split()` with no argument: the maximal whitespace-free runs of
`s`, with no empty strings. -/
def pywords (s : String) : List String := wordsAux s.data []

/-- One decimal digit, or `none`. -/
def digitVal (c : Char) : Option Nat :=
  if '0' ≤ c ∧ c ≤ '9' then some (c.toNat - '0'.toNat) else none

/-- Accumulating decimal parser for a digit string. -/
def parseDigitsAux : List Char → Nat → Option Nat
  | [], acc => some acc
  | c :: rest, acc =>
    match digitVal c with
    | some d => parseDigitsAux rest (acc * 10 + d)
    | none => none

/-- Nonempty all-digit string to `Nat`, else `none`. -/
def parseDigits : List Char → Option Nat
  | [] => none
  | cs => parseDigitsAux cs 0

/-- Python `int(s)` on the token shapes occurring in index files: an optional
sign followed by one or more decimal digits; anything else raises, modelled
as `none`.  (Python additionally tolerates surrounding whitespace and interior
underscores, which `str.split()` output never contains here.) -/
def parseInt (s : String) : Option Int :=
  match s.data with
  | '-' :: rest => (parseDigits rest).map (fun n => -(n : Int))
  | '+' :: rest => (parseDigits rest).map (fun n => (n : Int))
  | cs => (parseDigits cs).map (fun n => (n : Int))

/-- The pair loop `for i in range(0, len(entries), 2)` shared by
`merge_partials` and `parse_postings_line`: each `(entries[i], entries[i+1])`
chunk whose two fields both parse as integers yields a `(doc_id, tf)` pair;
a chunk with a non-integer field is skipped by the `except: continue`,
leaving the remaining chunks processed.  Called only on even-length lists. -/
def parsePairs : List String → List (Int × Int)
  | a :: b :: rest =>
    (match parseInt a, parseInt b with
     | some d, some tf => (d, tf) :: parsePairs rest
     | _, _ => parsePairs rest)
  | _ => []

/-- Assignment `postings[doc_id] = tf` on a Python dict modelled as an
insertion-ordered association list: overwrite the existing entry for the key,
or append a new one. -/
def upsert (l : List (Int × Int)) (d tf : Int) : List (Int × Int) :=
  if l.any (fun p => p.1 = d) then l.map (fun p => if p.1 = d then (d, tf) else p)
  else l ++ [(d, tf)]

/-- Build a dict from a pair stream by repeated assignment. -/
def dictOf (ps : List (Int × Int)) : List (Int × Int) :=
  ps.foldl (fun acc p => upsert acc p.1 p.2) []

/-- `search.py` `parse_postings_line`: strip, split at the first colon, split
the postings part into whitespace-separated fields; an odd field count yields
an empty postings dict; otherwise the valid pairs are assigned into a dict.
(The callers only pass lines containing a colon.) -/
def parse_postings_line (line : String) : String × List (Int × Int) :=
  let stripped := strip line
  let term := beforeColon stripped
  let entries := pywords (afterColon stripped)
  if entries.length % 2 ≠ 0 then (term, [])
  else (term, dictOf (parsePairs entries))

/-! ### The merge (`indexer.py` `merge_partials`) -/

/-- The in-memory index `defaultdict(dict)` of `merge_partials`, viewed
extensionally: a term and doc_id look up to the stored tf, or `none`. -/
abbrev MergedIndex := String → Int → Option Int

/-- The empty `defaultdict(dict)`. -/
def emptyIndex : MergedIndex := fun _ _ => none

/-- The dict assignment `find_index[term][doc_id] = tf`: note this
*overwrites* any value already stored for the `(term, doc_id)` pair. -/
def setTf (idx : MergedIndex) (term : String) (d tf : Int) : MergedIndex :=
  fun t' d' => if term = t' ∧ d = d' then some tf else idx t' d'

/-- Processing one line of a partial file inside `merge_partials`:
skip the line if it has no colon or an odd number of postings fields,
otherwise assign each successfully parsed `(doc_id, tf)` pair. -/
def mergeLine (idx : MergedIndex) (line : String) : MergedIndex :=
  if containsColon line then
    let stripped := strip line
    let term := beforeColon stripped
    let entries := pywords (afterColon stripped)
    if entries.length % 2 ≠ 0 then idx
    else (parsePairs entries).foldl (fun i p => setTf i term p.1 p.2) idx
  else idx

/-- Processing one partial file: its lines in order. -/
def mergeFile (idx : MergedIndex) (lines : List String) : MergedIndex :=
  lines.foldl mergeLine idx

/-- `merge_partials`: fold all partial files (already in the
filename-sorted processing order) into one index. -/
def merge_partials (files : List (List String)) : MergedIndex :=
  files.foldl mergeFile emptyIndex

/-- The `(term, doc_id, tf)` assignments a single line contributes, in
execution order. -/
def linePairs (line : String) : List (String × Int × Int) :=
  if containsColon line then
    let stripped := strip line
    let term := beforeColon stripped
    let entries := pywords (afterColon stripped)
    if entries.length % 2 ≠ 0 then []
    else (parsePairs entries).map (fun p => (term, p.1, p.2))
  else []

/-- All assignments performed by `merge_partials`, in execution order. -/
def allStream (files : List (List String)) : List (String × Int × Int) :=
  files.flatMap (fun lines => lines.flatMap linePairs)

/-- Replay a stream of assignments. -/
def applyStream (idx : MergedIndex) (ps : List (String × Int × Int)) : MergedIndex :=
  ps.foldl (fun i q => setTf i q.1 q.2.1 q.2.2) idx

/-- The value of the chronologically last assignment to `(t, d)` in the
stream, if any: later assignments shadow earlier ones. -/
def lastVal : List (String × Int × Int) → String → Int → Option Int
  | [], _, _ => none
  | q :: rest, t, d =>
    (lastVal rest t d).or (if q.1 = t ∧ q.2.1 = d then some q.2.2 else none)

lemma applyStream_lookup (ps : List (String × Int × Int)) :
    ∀ (idx : MergedIndex) (t : String) (d : Int),
      applyStream idx ps t d = (lastVal ps t d).or (idx t d) := by
  induction ps with
  | nil => intro idx t d; simp [applyStream, lastVal]
  | cons q rest ih =>
    intro idx t d
    show applyStream (setTf idx q.1 q.2.1 q.2.2) rest t d = _
    rw [ih]
    simp only [lastVal, Option.or_assoc]
    congr 1
    by_cases h : q.1 = t ∧ q.2.1 = d
    · simp [setTf, h]
    · simp [setTf, h]

lemma mergeLine_stream (idx : MergedIndex) (line : String) :
    mergeLine idx line = applyStream idx (linePairs line) := by
  unfold mergeLine linePairs
  by_cases h : containsColon line
  · simp only [h, if_true]
    by_cases hodd : (pywords (afterColon (strip line))).length % 2 ≠ 0
    · simp [hodd, applyStream]
    · simp [hodd, applyStream, List.foldl_map]
  · simp [h, applyStream]

lemma mergeFile_stream (lines : List String) :
    ∀ idx : MergedIndex, mergeFile idx lines = applyStream idx (lines.flatMap linePairs) := by
  induction lines with
  | nil => intro idx; simp [mergeFile, applyStream]
  | cons l rest ih =>
    intro idx
    show mergeFile (mergeLine idx l) rest = _
    rw [ih, mergeLine_stream]
    simp [applyStream, List.flatMap_cons, List.foldl_append]

lemma merge_partials_stream (files : List (List String)) :
    merge_partials files = applyStream emptyIndex (allStream files) := by
  suffices h : ∀ idx : MergedIndex,
      files.foldl mergeFile idx = applyStream idx (allStream files) by
    exact h emptyIndex
  induction files with
  | nil => intro idx; simp [applyStream, allStream]
  | cons f rest ih =>
    intro idx
    show rest.foldl mergeFile (mergeFile idx f) = _
    rw [ih, mergeFile_stream]
    simp [applyStream, allStream, List.flatMap_cons, List.foldl_append]

lemma merge_lookup_eq_lastVal (files : List (List String)) (t : String) (d : Int) :
    merge_partials files t d = lastVal (allStream files) t d := by
  rw [merge_partials_stream, applyStream_lookup]
  simp [emptyIndex, Option.or_none]

/-- **C1 (amended)**: `merge_partials` stores, for each `(term, doc_id)` pair,
the tf of the chronologically *last* `(term, doc_id, tf)` assignment parsed
from the partial files in processing order — later files *replace*, not sum,
the values of earlier files (`find_index[term][doc_id] = tf`); in particular,
when the pair is mentioned exactly once across all files, the stored tf is
that single recorded value. -/
theorem merge_partials_last_wins (files : List (List String)) (t : String) (d : Int) :
    merge_partials files t d = lastVal (allStream files) t d :=
  merge_lookup_eq_lastVal files t d

/-- **C1 (counterexample)**: two partial files both record the pair
`(term "t", doc 1)`, with tf `2` and tf `3`; the merge stores `3` (the later
file's value), not the sum `5` claimed by the spec. -/
theorem merge_partials_not_sum_cx :
    merge_partials [["t: 1 2"], ["t: 1 3"]] "t" 1 = some 3 ∧
      merge_partials [["t: 1 2"], ["t: 1 3"]] "t" 1 ≠ some (2 + 3) := by
  constructor
  · rfl
  · decide

/-! ### Order-invariance of the merge (C3) -/

/-- The `(term, doc_id)` keys a partial file assigns during the merge. -/
def fileKeys (lines : List String) : List (String × Int) :=
  (lines.flatMap linePairs).map (fun q => (q.1, q.2.1))

/-- Two partial files assign disjoint `(term, doc_id)` key sets. -/
def KeyDisjoint (f g : List String) : Prop :=
  ∀ p ∈ fileKeys f, p ∉ fileKeys g

instance : DecidableEq (String × Int) := inferInstance

instance (f g : List String) : Decidable (KeyDisjoint f g) := by
  unfold KeyDisjoint; infer_instance

lemma lastVal_append (ps qs : List (String × Int × Int)) (t : String) (d : Int) :
    lastVal (ps ++ qs) t d = (lastVal qs t d).or (lastVal ps t d) := by
  induction ps with
  | nil => simp [lastVal, Option.or_none]
  | cons q rest ih =>
    show (lastVal (rest ++ qs) t d).or _ = _
    rw [ih, Option.or_assoc]
    rfl

lemma lastVal_eq_none_of_not_mem_keys (ps : List (String × Int × Int)) (t : String) (d : Int)
    (h : (t, d) ∉ ps.map (fun q => (q.1, q.2.1))) : lastVal ps t d = none := by
  induction ps with
  | nil => rfl
  | cons q rest ih =>
    simp only [List.map_cons, List.mem_cons, not_or] at h
    have hcond : ¬(q.1 = t ∧ q.2.1 = d) := by
      rintro ⟨h1, h2⟩
      exact h.1 (by rw [← h1, ← h2])
    simp [lastVal, ih h.2, hcond]

lemma allStream_cons (f : List String) (rest : List (List String)) :
    allStream (f :: rest) = f.flatMap linePairs ++ allStream rest := by
  simp [allStream, List.flatMap_cons]

/-- **C3 (amended)**: when no `(term, doc_id)` pair is assigned by two
different partial files — the invariant the indexer maintains, since one
document's postings are written in a single partial — merging the files in
any order yields the same final postings mapping.  (Without that hypothesis
the merge is order-sensitive, because a later file *replaces* an earlier
file's value for a shared pair; see the counterexample.) -/
theorem merge_partials_order_invariant (files₁ files₂ : List (List String))
    (hperm : files₁.Perm files₂)
    (hdisj : files₁.Pairwise KeyDisjoint) (t : String) (d : Int) :
    merge_partials files₁ t d = merge_partials files₂ t d := by
  rw [merge_lookup_eq_lastVal, merge_lookup_eq_lastVal]
  have hsymm : ∀ {f g : List String}, KeyDisjoint f g → KeyDisjoint g f := by
    intro f g h p hpg hpf
    exact h p hpf hpg
  induction hperm with
  | nil => rfl
  | cons x hp ih =>
    rw [allStream_cons, allStream_cons, lastVal_append, lastVal_append,
      ih (List.Pairwise.sublist (List.sublist_cons_self x _) hdisj)]
  | swap x y l =>
    have hxy : KeyDisjoint y x := (List.pairwise_cons.mp hdisj).1 x (by simp)
    rw [allStream_cons, allStream_cons, allStream_cons, allStream_cons,
      lastVal_append, lastVal_append, lastVal_append, lastVal_append]
    by_cases hx : (t, d) ∈ fileKeys x
    · have hy : (t, d) ∉ fileKeys y := fun hy => hxy (t, d) hy hx
      rw [lastVal_eq_none_of_not_mem_keys (y.flatMap linePairs) t d hy]
      simp [Option.or_none, Option.none_or, Option.or_assoc]
    · rw [lastVal_eq_none_of_not_mem_keys (x.flatMap linePairs) t d hx]
      simp [Option.or_none, Option.none_or, Option.or_assoc]
  | trans hp₁ hp₂ ih₁ ih₂ =>
    exact (ih₁ hdisj).trans (ih₂ ((hp₁.pairwise_iff hsymm).mp hdisj))

/-- **C3 (witness)**: two key-disjoint partial files merge to the same index
in either order. -/
theorem merge_partials_order_invariant_witness :
    ([["t: 1 2"], ["u: 2 3"]] : List (List String)).Pairwise KeyDisjoint ∧
      merge_partials [["t: 1 2"], ["u: 2 3"]] "t" 1 =
        merge_partials [["u: 2 3"], ["t: 1 2"]] "t" 1 :=
  ⟨by decide, merge_partials_order_invariant _ _ (List.Perm.swap _ _ _) (by decide) "t" 1⟩

/-- **C3 (counterexample)**: the two orders of the same two partial files give
different merged values for `(term "t", doc 1)` — `some 3` versus `some 2` —
so the merge is *not* order-invariant in general, contrary to the claim. -/
theorem merge_partials_order_cx :
    ([["t: 1 2"], ["t: 1 3"]] : List (List String)).Perm [["t: 1 3"], ["t: 1 2"]] ∧
      merge_partials [["t: 1 2"], ["t: 1 3"]] "t" 1 ≠
        merge_partials [["t: 1 3"], ["t: 1 2"]] "t" 1 :=
  ⟨List.Perm.swap _ _ _, by decide⟩

/-! ### Malformed-line recovery (C5) -/

lemma parsePairs_append_skip (a b : String) (ys : List String)
    (hbad : parseInt a = none ∨ parseInt b = none) :
    ∀ xs : List String, xs.length % 2 = 0 →
      parsePairs (xs ++ a :: b :: ys) = parsePairs xs ++ parsePairs ys
  | [], _ => by
      rcases hbad with h | h
      · cases hpb : parseInt b <;> simp [parsePairs, h, hpb]
      · cases hpa : parseInt a <;> simp [parsePairs, h, hpa]
  | [x], h => by simp at h
  | x :: y :: rest, h => by
      have hr : rest.length % 2 = 0 := by
        simp only [List.length_cons] at h
        omega
      have ih := parsePairs_append_skip a b ys hbad rest hr
      cases hpx : parseInt x <;> cases hpy : parseInt y <;>
        simp [parsePairs, hpx, hpy, ih]

lemma mergeLine_skip_of_odd (line : String)
    (h : (pywords (afterColon (strip line))).length % 2 = 1) :
    ∀ idx : MergedIndex, mergeLine idx line = idx := by
  intro idx
  unfold mergeLine
  by_cases hc : containsColon line <;> simp [hc, h]

/-- **C5 (amended)**: malformed-input recovery in the pair-parsing loops of
`merge_partials` and `parse_postings_line` is *pair-local*, not line-local:
(1) a `(doc_id, tf)` chunk with a non-integer field is dropped while every
other chunk of the same line is still parsed; (2) only a line with an odd
number of postings fields is skipped whole (and a line without a colon is
skipped by the merge); (3) either way the remaining lines of the file are
still processed, and both loaders are total — they never abort. -/
theorem malformed_postings_recovery :
    (∀ a b : String, parseInt a = none ∨ parseInt b = none →
      ∀ (ys xs : List String), xs.length % 2 = 0 →
        parsePairs (xs ++ a :: b :: ys) = parsePairs xs ++ parsePairs ys) ∧
    (∀ line : String, (pywords (afterColon (strip line))).length % 2 = 1 →
      (parse_postings_line line).2 = [] ∧ ∀ idx : MergedIndex, mergeLine idx line = idx) ∧
    (∀ (idx : MergedIndex) (ls₁ : List String) (bad : String) (ls₂ : List String),
      (∀ j : MergedIndex, mergeLine j bad = j) →
        mergeFile idx (ls₁ ++ bad :: ls₂) = mergeFile idx (ls₁ ++ ls₂)) := by
  refine ⟨?_, ?_, ?_⟩
  · intro a b hbad ys xs hxs
    exact parsePairs_append_skip a b ys hbad xs hxs
  · intro line h
    refine ⟨?_, mergeLine_skip_of_odd line h⟩
    unfold parse_postings_line
    simp [h]
  · intro idx ls₁ bad ls₂ hbad
    unfold mergeFile
    rw [List.foldl_append, List.foldl_append]
    show List.foldl mergeLine (mergeLine (List.foldl mergeLine idx ls₁) bad) ls₂ = _
    rw [hbad]

/-- **C5 (witness)**: concrete instances of the recovery theorem: the pair
`("x", "4")` is dropped while `("1", "2")` survives on the same line, and the
odd line `"t: 1 2 3"` parses to an empty postings dict. -/
theorem malformed_postings_recovery_witness :
    (parseInt "x" = none ∨ parseInt "4" = none) ∧
    parsePairs (["1", "2"] ++ "x" :: "4" :: []) = parsePairs ["1", "2"] ++ parsePairs [] ∧
    (pywords (afterColon (strip "t: 1 2 3"))).length % 2 = 1 ∧
    (parse_postings_line "t: 1 2 3").2 = [] :=
  ⟨Or.inl (by decide),
   malformed_postings_recovery.1 "x" "4" (Or.inl (by decide)) [] ["1", "2"] (by decide),
   by decide,
   (malformed_postings_recovery.2.1 "t: 1 2 3" (by decide)).1⟩

/-- **C5 (counterexample)**: the line `"t: 1 2 x 4"` contains the non-integer
field `"x"`, yet the posting `(1, 2)` from the same line *is* kept by both
the merge and the query-time parser — the claim that the entire line is
skipped ("no posting from that line is kept") is false. -/
theorem malformed_postings_line_cx :
    parseInt "x" = none ∧
    merge_partials [["t: 1 2 x 4"]] "t" 1 = some 2 ∧
    (parse_postings_line "t: 1 2 x 4").2 = [(1, 2)] :=
  ⟨rfl, rfl, rfl⟩

/-! ### Text extraction and per-document weighting
(`indexer.py` `extract_text_from_html`, `build_index_for_one_doc`) -/

/-- The HTML element context a piece of visible text sits in, at the
granularity `extract_text_from_html` distinguishes: inside `<title>`, inside
an `<h1>/<h2>/<h3>` heading, inside `<b>/<strong>`, or plain body text. -/
inductive Tag
  | title
  | heading
  | bold
  | plain
deriving DecidableEq

/-- One visible text node of a parsed document together with its context. -/
structure Segment where
  tag : Tag
  text : String
deriving DecidableEq

/-- `s` is tagged `t`. -/
def hasTag (t : Tag) (s : Segment) : Bool := s.tag == t

/-- Python `sep.join(l)`. -/
def pyJoin (sep : String) : List String → String
  | [] => ""
  | [x] => x
  | x :: rest => x ++ sep ++ pyJoin sep rest

/-- `indexer.py` `extract_text_from_html`, on a parsed document given as its
visible text nodes in document order.  `soup.get_text(separator=' ')` returns
the text of *every* node of the document — title, headings and bold text
included — joined by single spaces; the important text is the first title's
text (`soup.find('title')`), then all heading texts, then all bold texts,
joined by `' '.join`. -/
def extract_text_from_html (doc : List Segment) : String × String :=
  (pyJoin " " (doc.map (fun s => s.text)),
   pyJoin " " (((doc.filter (hasTag .title)).map (fun s => s.text)).take 1
     ++ (doc.filter (hasTag .heading)).map (fun s => s.text)
     ++ (doc.filter (hasTag .bold)).map (fun s => s.text)))

/-- The weighted term frequency computed by `build_index_for_one_doc`: each
occurrence of `term` in `tokens` contributes `1`, each occurrence in
`important_tokens` contributes `5`.  (A term occurring in neither list is not
a key of the Python dict, which coincides with frequency `0` here.) -/
def term_freq_of (tokens important_tokens : List String) (term : String) : Nat :=
  tokens.count term + 5 * important_tokens.count term

/-- The full indexing pipeline for one document's term frequency: extract,
tokenize, stem, weight — as wired up in the indexer's main loop. -/
def docTermFreq (stem : String → String) (doc : List Segment) (term : String) : Nat :=
  term_freq_of
    (Idx.stem_tokens stem (Idx.tokenize (extract_text_from_html doc).1))
    (Idx.stem_tokens stem (Idx.tokenize (extract_text_from_html doc).2))
    term

/-! Tokenization facts used to reason about joined text. -/

lemma Idx.tokenizeAux_append_sep (ys : List Char) :
    ∀ (xs cur : List Char),
      Idx.tokenizeAux (xs ++ ' ' :: ys) cur =
        Idx.tokenizeAux xs cur ++ Idx.tokenizeAux ys [] := by
  intro xs
  induction xs with
  | nil =>
    intro cur
    by_cases h : cur.isEmpty <;> simp [Idx.tokenizeAux, isAlnumChar, h]
  | cons c rest ih =>
    intro cur
    by_cases hc : isAlnumChar c
    · simp [Idx.tokenizeAux, hc, ih]
    · by_cases hcur : cur.isEmpty <;> simp [Idx.tokenizeAux, hc, hcur, ih]

lemma Idx.tokenize_append_space (a b : String) :
    Idx.tokenize (a ++ " " ++ b) = Idx.tokenize a ++ Idx.tokenize b := by
  unfold Idx.tokenize
  have : (a ++ " " ++ b).data = a.data ++ ' ' :: b.data := by
    simp [String.data_append]
  rw [this, List.map_append]
  show Idx.tokenizeAux (a.data.map Char.toLower ++ ' ' :: b.data.map Char.toLower) [] = _
  exact Idx.tokenizeAux_append_sep _ _ []

lemma Idx.tokenize_pyJoin (l : List String) :
    Idx.tokenize (pyJoin " " l) = l.flatMap Idx.tokenize := by
  induction l with
  | nil => rfl
  | cons x rest ih =>
    cases rest with
    | nil => simp [pyJoin, List.flatMap_cons]
    | cons y rest' =>
      show Idx.tokenize (x ++ " " ++ pyJoin " " (y :: rest')) = _
      rw [Idx.tokenize_append_space, ih]
      simp [List.flatMap_cons]

lemma Idx.stem_tokens_eq_map (stem : String → String) (tokens : List String) :
    Idx.stem_tokens stem tokens = tokens.map stem := by
  unfold Idx.stem_tokens
  suffices h : ∀ acc, tokens.foldl (fun result token => result ++ [stem token]) acc
      = acc ++ tokens.map stem by
    simpa using h []
  induction tokens with
  | nil => intro acc; simp
  | cons t rest ih => intro acc; simp [ih]

/-- Occurrence count of `t` among the stemmed tokens of each segment of
`segs`, summed. -/
def catCount (stem : String → String) (t : String) (segs : List Segment) : Nat :=
  (segs.map (fun s => ((Idx.tokenize s.text).map stem).count t)).sum

lemma count_flatMap_eq_sum {α : Type} (g : α → List String) (t : String) :
    ∀ l : List α, ((l.flatMap g).count t) = (l.map (fun a => (g a).count t)).sum := by
  intro l
  induction l with
  | nil => rfl
  | cons x rest ih => simp [List.flatMap_cons, List.count_append, ih]

lemma count_stemmed_pyJoin (stem : String → String) (t : String) (l : List String) :
    ((Idx.tokenize (pyJoin " " l)).map stem).count t =
      (l.map (fun x => ((Idx.tokenize x).map stem).count t)).sum := by
  rw [Idx.tokenize_pyJoin, List.map_flatMap, count_flatMap_eq_sum]

lemma sum_partition_by_tag (f : Segment → Nat) :
    ∀ doc : List Segment,
      (doc.map f).sum =
        ((doc.filter (hasTag .title)).map f).sum
          + ((doc.filter (hasTag .heading)).map f).sum
          + ((doc.filter (hasTag .bold)).map f).sum
          + ((doc.filter (hasTag .plain)).map f).sum := by
  intro doc
  induction doc with
  | nil => rfl
  | cons s rest ih =>
    cases htag : s.tag <;>
      simp [List.filter_cons, hasTag, htag, ih, List.sum_cons] <;> omega

lemma catCount_take_one_eq_zero (stem : String → String) (t : String)
    (segs : List Segment) (h : catCount stem t segs = 0) :
    catCount stem t (segs.take 1) = 0 := by
  cases segs with
  | nil => rfl
  | cons s rest =>
    unfold catCount at h ⊢
    simp only [List.map_cons, List.sum_cons] at h
    simp [Nat.eq_zero_of_add_eq_zero_right h]

lemma sum_over_texts (stem : String → String) (t : String) (segs : List Segment) :
    ((segs.map (fun s => s.text)).map
      (fun x => ((Idx.tokenize x).map stem).count t)).sum = catCount stem t segs := by
  rw [List.map_map]
  rfl

/-- **C2 (amended)**: for a document where term `t` (after stemming) occurs
exactly once among the plain body segments and exactly once inside a heading
— and nowhere in the title or bold text — the stored term frequency is `7`,
not `6`: `soup.get_text()` returns the text of the *whole* document, so the
heading occurrence is counted once more among the regular tokens (`2 × 1`)
in addition to the important-token boost (`1 × 5`). -/
theorem heading_and_body_term_freq (stem : String → String) (doc : List Segment) (t : String)
    (hplain : catCount stem t (doc.filter (hasTag .plain)) = 1)
    (hheading : catCount stem t (doc.filter (hasTag .heading)) = 1)
    (htitle : catCount stem t (doc.filter (hasTag .title)) = 0)
    (hbold : catCount stem t (doc.filter (hasTag .bold)) = 0) :
    docTermFreq stem doc t = 7 := by
  unfold docTermFreq term_freq_of extract_text_from_html
  rw [Idx.stem_tokens_eq_map, Idx.stem_tokens_eq_map]
  rw [count_stemmed_pyJoin, count_stemmed_pyJoin]
  rw [List.map_append, List.map_append, List.sum_append, List.sum_append]
  rw [sum_over_texts, ← List.map_take, sum_over_texts, sum_over_texts, sum_over_texts]
  have hdoc : catCount stem t doc = 2 := by
    have hsplit := sum_partition_by_tag
      (fun s => ((Idx.tokenize s.text).map stem).count t) doc
    unfold catCount at hplain hheading htitle hbold ⊢
    rw [hsplit, hplain, hheading, htitle, hbold]
  rw [hdoc, catCount_take_one_eq_zero stem t _ htitle, hheading, hbold]
  norm_num

/-- **C2 (witness)**: a document with one heading `"apple"` and one body
occurrence of `"apple"` (identity stemmer) stores term frequency `7`. -/
theorem heading_and_body_term_freq_witness :
    catCount id "apple"
        (([⟨.heading, "apple"⟩, ⟨.plain, "apple"⟩] : List Segment).filter (hasTag .plain)) = 1 ∧
    docTermFreq id [⟨.heading, "apple"⟩, ⟨.plain, "apple"⟩] "apple" = 7 :=
  ⟨rfl, heading_and_body_term_freq id [⟨.heading, "apple"⟩, ⟨.plain, "apple"⟩] "apple"
    rfl rfl rfl rfl⟩

/-- **C2 (counterexample)**: the same document refutes the claimed value `6`:
the stored term frequency of `"apple"` is `7`, because the heading text also
appears in `soup.get_text()`'s full visible text. -/
theorem heading_boost_six_cx :
    docTermFreq id [⟨.heading, "apple"⟩, ⟨.plain, "apple"⟩] "apple" = 7 ∧
    docTermFreq id [⟨.heading, "apple"⟩, ⟨.plain, "apple"⟩] "apple" ≠ 6 :=
  ⟨rfl, by decide⟩

/-! ### Index-path vs query-path normalization (C8) -/

lemma tokenizeAux_agree (cs : List Char) :
    ∀ cur, Srch.tokenizeAux cs cur = Idx.tokenizeAux cs cur := by
  induction cs with
  | nil => intro cur; rfl
  | cons c rest ih =>
    intro cur
    simp only [Srch.tokenizeAux, Idx.tokenizeAux]
    by_cases hc : isAlnumChar c
    · simp [hc, ih]
    · by_cases hcur : cur.isEmpty <;> simp [hc, hcur, ih]

lemma tokenize_agree (s : String) : Srch.tokenize s = Idx.tokenize s := by
  unfold Srch.tokenize Idx.tokenize
  exact tokenizeAux_agree _ []

/-- **C8**: the query-path normalization of `search.py` (`normalize_query`,
i.e. its `tokenize` followed by its `stem_tokens`) and the index-path
normalization of `indexer.py` (its own `tokenize` followed by its own
`stem_tokens`) are equal as functions, for every stemmer and every input
string — the two copies of the pipeline cannot drift apart. -/
theorem normalize_paths_agree (stem : String → String) (s : String) :
    Srch.normalize_query stem s = Idx.stem_tokens stem (Idx.tokenize s) := by
  unfold Srch.normalize_query Srch.stem_tokens
  rw [Idx.stem_tokens_eq_map, tokenize_agree]

/-! ### Document processing, doc-id map, URL fragments (C6, C7)
(`indexer.py` `__main__` loop; `search.py` `strip_fragment`,
`build_doc_id_map_if_missing`) -/

/-- One crawled JSON document as the indexer's main loop sees it after
`json.load`: the optional `"url"` field (`data.get("url", "")` defaults a
missing field to `""`) and the optional `"content"` field, already parsed
into text segments (HTML parsing itself is external).  `content? = none`
models a document whose JSON has no `content` key. -/
structure RawDoc where
  url? : Option String
  content? : Option (List Segment)
deriving DecidableEq

/-- `search.py` `strip_fragment`: the URL up to (excluding) the first `'#'`
(`url.split("#", 1)[0]`); non-string input yields `""`, which cannot occur
in this model. -/
def strip_fragment (url : String) : String :=
  String.mk (url.data.takeWhile (fun c => c ≠ '#'))

/-- The doc-id/URL bookkeeping of the `__main__` loop of `indexer.py`:
each document is assigned the next doc_id and its *raw* URL
(`doc_id_to_url[doc_id] = data.get("url", "")`, no fragment stripping);
then `data['content']` is read with no `try` around it, so a document
without a `content` key raises `KeyError` and aborts the whole run
(modelled as `Except.error`).  Tokenization and partial-index flushing do
not affect the doc map or the abort and are elided. -/
def indexDocsGo : List RawDoc → Int → List (Int × String) → Except String (List (Int × String))
  | [], _, acc => .ok acc
  | d :: rest, n, acc =>
    let acc' := acc ++ [(n, d.url?.getD "")]
    match d.content? with
    | none => .error "KeyError: content"
    | some _ => indexDocsGo rest (n + 1) acc'

/-- The doc_id → URL map the indexer run persists (doc_ids start at 1), or
the uncaught exception that aborted the run. -/
def indexer_doc_map (docs : List RawDoc) : Except String (List (Int × String)) :=
  indexDocsGo docs 1 []

/-- The closed form of the indexer's doc map: consecutive doc_ids from `n`,
each mapped to the document's raw URL. -/
def rawUrlMap : List RawDoc → Int → List (Int × String)
  | [], _ => []
  | d :: rest, n => (n, d.url?.getD "") :: rawUrlMap rest (n + 1)

/-- `search.py` `build_doc_id_map_if_missing`, branch where the persisted map
exists: `{int(doc_id): strip_fragment(url) for doc_id, url in raw.items()}`. -/
def load_doc_id_map (raw : List (Int × String)) : List (Int × String) :=
  raw.map (fun p => (p.1, strip_fragment p.2))

/-- `search.py` `build_doc_id_map_if_missing`, fallback branch that rebuilds
the map from the corpus.  Each corpus document is `none` when reading or
JSON-parsing it raises (then the `except` stores `""`), or
`some url?` with its optional `"url"` field; every document receives the
next doc_id, and stored URLs are fragment-stripped. -/
def buildDocIdMapGo : List (Option (Option String)) → Int → List (Int × String)
  | [], _ => []
  | j :: rest, n =>
    (n, match j with
        | none => ""
        | some u? => strip_fragment (u?.getD "")) :: buildDocIdMapGo rest (n + 1)

/-- The lazily built doc_id → URL map (doc_ids start at 1). -/
def build_doc_id_map (js : List (Option (Option String))) : List (Int × String) :=
  buildDocIdMapGo js 1

lemma strip_fragment_no_hash (u : String) : '#' ∉ (strip_fragment u).data := by
  intro hmem
  have := List.mem_takeWhile_imp hmem
  simp at this

lemma indexDocsGo_error_of_missing_content :
    ∀ (docs : List RawDoc) (n : Int) (acc : List (Int × String)),
      (∃ d ∈ docs, d.content? = none) →
        ∃ e, indexDocsGo docs n acc = .error e := by
  intro docs
  induction docs with
  | nil =>
    intro n acc h
    obtain ⟨d, hd, -⟩ := h
    exact absurd hd (List.not_mem_nil d)
  | cons d rest ih =>
    intro n acc h
    cases hc : d.content? with
    | none => exact ⟨"KeyError: content", by simp [indexDocsGo, hc]⟩
    | some c =>
      obtain ⟨d', hd', hnone⟩ := h
      rcases List.mem_cons.mp hd' with rfl | hmem
      · rw [hc] at hnone; cases hnone
      · have := ih (n + 1) (acc ++ [(n, d.url?.getD "")]) ⟨d', hmem, hnone⟩
        simpa [indexDocsGo, hc] using this

lemma buildDocIdMapGo_length (js : List (Option (Option String))) :
    ∀ n, (buildDocIdMapGo js n).length = js.length := by
  induction js with
  | nil => intro n; rfl
  | cons j rest ih => intro n; simp [buildDocIdMapGo, ih]

lemma buildDocIdMapGo_failed_entry (post : List (Option (Option String))) :
    ∀ (pre : List (Option (Option String))) (n : Int),
      (buildDocIdMapGo (pre ++ none :: post) n)[pre.length]? = some (n + pre.length, "") := by
  intro pre
  induction pre with
  | nil => intro n; simp [buildDocIdMapGo]
  | cons p pre' ih =>
    intro n
    show ((n, _) :: buildDocIdMapGo (pre' ++ none :: post) (n + 1))[pre'.length + 1]? = _
    rw [List.getElem?_cons_succ, ih (n + 1)]
    congr 2
    push_cast [List.length_cons]
    ring

/-- **C6 (amended)**: the indexing run (`indexer.py` `__main__`) does *not*
recover from a document with a missing `content` field — the unguarded
`data['content']` raises and the whole run aborts.  Local recovery happens
only in `search.py`'s lazy doc-map builder: there every document — also one
whose file fails to read or parse — still receives a doc_id and a (possibly
empty) URL map entry, and the build never aborts. -/
theorem missing_content_handling :
    (∀ docs : List RawDoc, (∃ d ∈ docs, d.content? = none) →
      ∃ e, indexer_doc_map docs = .error e) ∧
    (∀ js : List (Option (Option String)), (build_doc_id_map js).length = js.length) ∧
    (∀ (pre post : List (Option (Option String))),
      (build_doc_id_map (pre ++ none :: post))[pre.length]? =
        some ((1 : Int) + pre.length, "")) := by
  refine ⟨?_, ?_, ?_⟩
  · intro docs h
    exact indexDocsGo_error_of_missing_content docs 1 [] h
  · intro js
    exact buildDocIdMapGo_length js 1
  · intro pre post
    exact buildDocIdMapGo_failed_entry post pre 1

/-- **C6 (witness)**: a one-document corpus whose document lacks a `content`
field aborts indexing, while the lazy builder maps an unreadable document to
doc_id 1 with an empty URL. -/
theorem missing_content_handling_witness :
    (∃ d ∈ ([⟨some "u", none⟩] : List RawDoc), d.content? = none) ∧
    (∃ e, indexer_doc_map [⟨some "u", none⟩] = .error e) ∧
    (build_doc_id_map [none])[(0 : Nat)]? = some ((1 : Int), "") :=
  ⟨⟨⟨some "u", none⟩, by simp, rfl⟩,
   missing_content_handling.1 [⟨some "u", none⟩] ⟨⟨some "u", none⟩, by simp, rfl⟩,
   by simpa using missing_content_handling.2.2 [] []⟩

/-- **C6 (counterexample)**: with a single document whose JSON has a URL but
no `content` key, the indexing run aborts with an uncaught `KeyError` —
contradicting the claim that indexing recovers locally and never aborts. -/
theorem missing_content_abort_cx :
    indexer_doc_map [⟨some "u", none⟩] = .error "KeyError: content" ∧
    ∀ m : List (Int × String), indexer_doc_map [⟨some "u", none⟩] ≠ .ok m :=
  ⟨rfl, fun m h => by simp [indexer_doc_map, indexDocsGo] at h⟩

lemma indexDocsGo_ok_of_content (docs : List RawDoc)
    (h : ∀ d ∈ docs, d.content?.isSome) :
    ∀ (n : Int) (acc : List (Int × String)),
      indexDocsGo docs n acc = .ok (acc ++ rawUrlMap docs n) := by
  induction docs with
  | nil => intro n acc; simp [indexDocsGo, rawUrlMap]
  | cons d rest ih =>
    intro n acc
    have hd : d.content?.isSome := h d (by simp)
    cases hc : d.content? with
    | none => rw [hc] at hd; cases hd
    | some c =>
      have hrest : ∀ d' ∈ rest, d'.content?.isSome :=
        fun d' hd' => h d' (List.mem_cons_of_mem d hd')
      simp only [indexDocsGo, hc]
      rw [ih hrest (n + 1) (acc ++ [(n, d.url?.getD "")])]
      simp [rawUrlMap]

/-- **C7 (amended)**: the map `indexer.py` persists stores each document's
*raw* URL (`data.get("url", "")` — the fragment is *not* removed there);
fragment stripping is applied by the retrieval component: loading the
persisted map maps every value through `strip_fragment`, and the lazily
rebuilt map stores `strip_fragment` values directly — so every value in the
maps the query path actually uses contains no `'#'`. -/
theorem doc_map_fragment_handling :
    (∀ docs : List RawDoc, (∀ d ∈ docs, d.content?.isSome) →
      indexer_doc_map docs = .ok (rawUrlMap docs 1)) ∧
    (∀ raw : List (Int × String),
      load_doc_id_map raw = raw.map (fun p => (p.1, strip_fragment p.2)) ∧
      ∀ p ∈ load_doc_id_map raw, '#' ∉ p.2.data) ∧
    (∀ (js : List (Option (Option String))) (p : Int × String),
      p ∈ build_doc_id_map js → '#' ∉ p.2.data) := by
  refine ⟨?_, ?_, ?_⟩
  · intro docs h
    simpa using indexDocsGo_ok_of_content docs h 1 []
  · intro raw
    refine ⟨rfl, ?_⟩
    intro p hp
    unfold load_doc_id_map at hp
    obtain ⟨q, -, rfl⟩ := List.mem_map.mp hp
    exact strip_fragment_no_hash q.2
  · intro js p hp
    unfold build_doc_id_map at hp
    suffices hgo : ∀ (l : List (Option (Option String))) (n : Int) (q : Int × String),
        q ∈ buildDocIdMapGo l n → '#' ∉ q.2.data by
      exact hgo js 1 p hp
    intro l
    induction l with
    | nil => intro n q hq; exact absurd hq (List.not_mem_nil q)
    | cons j rest ih =>
      intro n q hq
      rcases List.mem_cons.mp hq with rfl | hmem
      · cases j with
        | none => simp
        | some u? => exact strip_fragment_no_hash (u?.getD "")
      · exact ih (n + 1) q hmem

/-- **C7 (witness)**: on a one-document corpus with a fragment-bearing URL,
the indexer persists the raw URL, and loading that map strips it. -/
theorem doc_map_fragment_handling_witness :
    (∀ d ∈ ([⟨some "http://e.com/p#frag", some []⟩] : List RawDoc), d.content?.isSome) ∧
    indexer_doc_map [⟨some "http://e.com/p#frag", some []⟩] =
      .ok (rawUrlMap [⟨some "http://e.com/p#frag", some []⟩] 1) ∧
    load_doc_id_map [(1, "http://e.com/p#frag")] =
      [(1, "http://e.com/p#frag")].map (fun p => (p.1, strip_fragment p.2)) :=
  ⟨by simp,
   doc_map_fragment_handling.1 [⟨some "http://e.com/p#frag", some []⟩] (by simp),
   (doc_map_fragment_handling.2.1 [(1, "http://e.com/p#frag")]).1⟩

/-- **C7 (counterexample)**: the value the indexer persists for a document
with URL `"http://e.com/p#frag"` is that raw URL, which still contains its
fragment — not the fragment-stripped `"http://e.com/p"` the claim requires
of every persisted value. -/
theorem persisted_map_fragment_cx :
    indexer_doc_map [⟨some "http://e.com/p#frag", some []⟩] =
      .ok [(1, "http://e.com/p#frag")] ∧
    strip_fragment "http://e.com/p#frag" = "http://e.com/p" ∧
    "http://e.com/p#frag" ≠ "http://e.com/p" :=
  ⟨rfl, rfl, by decide⟩

/-! ### Query evaluation (`search.py` `and_search`) -/

/-- `postings.get(doc_id, 0)` on a postings dict. -/
def getTf (l : List (Int × Int)) (d : Int) : Int :=
  match l.find? (fun p => p.1 == d) with
  | some p => p.2
  | none => 0

/-- The per-term document frequency used by `and_search`:
`df = len(postings_by_term[term])`. -/
def dfOf (pbt : String → List (Int × Int)) (t : String) : Nat := (pbt t).length

/-- The smoothed inverse document frequency of `and_search`:
`math.log((total_docs + 1) / (df + 1)) + 1.0`. -/
noncomputable def idfOf (total : Nat) (pbt : String → List (Int × Int)) (t : String) : Real :=
  Real.log ((total + 1) / (dfOf pbt t + 1)) + 1

/-- The contribution one query-term occurrence adds to a document's score:
`if tf > 0: score += (1 + math.log(tf)) * idf[term]`. -/
noncomputable def tfContrib (idf : Real) (tf : Int) : Real :=
  if 0 < tf then (1 + Real.log tf) * idf else 0

/-- The tf-idf score `and_search` computes for one candidate document:
the scoring loop runs over the normalized query term *list* (duplicates
included), so each occurrence of a term contributes separately. -/
noncomputable def docScore (total : Nat) (pbt : String → List (Int × Int))
    (terms : List String) (d : Int) : Real :=
  (terms.map (fun t => tfContrib (idfOf total pbt t) (getTf (pbt t) d))).sum

/-- The doc_id key set of a postings dict (`set(postings.keys())`). -/
def keysFinset (l : List (Int × Int)) : Finset Int := (l.map Prod.fst).toFinset

/-- The boolean-AND candidate set `set.intersection(*term_docs)`, the key
sets taken in query-term order. -/
def candidateSet (pbt : String → List (Int × Int)) : List String → Finset Int
  | [] => ∅
  | t :: ts => ts.foldl (fun s t' => s ∩ keysFinset (pbt t')) (keysFinset (pbt t))

lemma foldl_inter_mem (pbt : String → List (Int × Int)) (d : Int) :
    ∀ (ts : List String) (init : Finset Int),
      d ∈ ts.foldl (fun s t' => s ∩ keysFinset (pbt t')) init ↔
        d ∈ init ∧ ∀ t ∈ ts, d ∈ keysFinset (pbt t) := by
  intro ts
  induction ts with
  | nil => intro init; simp
  | cons t ts' ih =>
    intro init
    rw [List.foldl_cons, ih]
    simp only [Finset.mem_inter, List.mem_cons]
    constructor
    · rintro ⟨⟨h1, h2⟩, h3⟩
      exact ⟨h1, fun u hu => hu.elim (fun he => he ▸ h2) (h3 u)⟩
    · rintro ⟨h1, h2⟩
      exact ⟨⟨h1, h2 t (Or.inl rfl)⟩, fun u hu => h2 u (Or.inr hu)⟩

lemma mem_candidateSet (pbt : String → List (Int × Int)) (d : Int) :
    ∀ terms : List String,
      d ∈ candidateSet pbt terms ↔ terms ≠ [] ∧ ∀ t ∈ terms, d ∈ keysFinset (pbt t)
  | [] => by simp [candidateSet]
  | t :: ts => by
    rw [candidateSet, foldl_inter_mem]
    simp only [ne_eq, List.cons_ne_nil, not_false_eq_true, true_and, List.mem_cons]
    constructor
    · rintro ⟨h1, h2⟩
      exact fun u hu => hu.elim (fun he => he ▸ h1) (h2 u)
    · intro h
      exact ⟨h t (Or.inl rfl), fun u hu => h u (Or.inr hu)⟩

lemma idfOf_ge_one (total : Nat) (pbt : String → List (Int × Int)) (t : String)
    (hdf : dfOf pbt t ≤ total) : 1 ≤ idfOf total pbt t := by
  unfold idfOf
  have hpos : (0 : Real) < (dfOf pbt t : Real) + 1 := by positivity
  have hratio : (1 : Real) ≤ ((total : Real) + 1) / ((dfOf pbt t : Real) + 1) := by
    rw [one_le_div hpos]
    have : (dfOf pbt t : Real) ≤ (total : Real) := by exact_mod_cast hdf
    linarith
  have := Real.log_nonneg hratio
  linarith

lemma one_le_one_add_log_ofInt {tf : Int} (h : 0 < tf) :
    (1 : Real) ≤ 1 + Real.log tf := by
  have h1 : (1 : Real) ≤ (tf : Real) := by exact_mod_cast h
  have := Real.log_nonneg h1
  linarith

lemma tfContrib_nonneg (idf : Real) (tf : Int) (hidf : 0 ≤ idf) :
    0 ≤ tfContrib idf tf := by
  unfold tfContrib
  by_cases h : 0 < tf
  · rw [if_pos h]
    have := one_le_one_add_log_ofInt h
    nlinarith
  · rw [if_neg h]

lemma tfContrib_mono (idf : Real) (hidf : 0 ≤ idf) {a b : Int} (hab : a ≤ b) :
    tfContrib idf a ≤ tfContrib idf b := by
  by_cases hb : 0 < b
  · by_cases ha : 0 < a
    · unfold tfContrib
      rw [if_pos ha, if_pos hb]
      have hcast : (a : Real) ≤ (b : Real) := by exact_mod_cast hab
      have hlog := Real.log_le_log (by exact_mod_cast ha) hcast
      have : (1 : Real) + Real.log a ≤ 1 + Real.log b := by linarith
      exact mul_le_mul_of_nonneg_right this hidf
    · unfold tfContrib
      rw [if_neg ha, if_pos hb]
      have := one_le_one_add_log_ofInt hb
      nlinarith
  · have ha : ¬ 0 < a := fun h => hb (lt_of_lt_of_le h hab)
    unfold tfContrib
    rw [if_neg ha, if_neg hb]

/-- **C9**: the tf-idf score `and_search` assigns to a candidate document is
monotone in that document's term frequency for any query term: raising
`tf(t0, d)` while keeping every other posting value, every term's document
frequency, and the total document count fixed (with the system invariant
`df ≤ total_docs`) never decreases the document's score. -/
theorem docScore_monotone_in_tf (total : Nat) (pbt pbt' : String → List (Int × Int))
    (terms : List String) (t0 : String) (d : Int)
    (hdfs : ∀ t ∈ terms, dfOf pbt' t = dfOf pbt t)
    (hothers : ∀ t ∈ terms, t ≠ t0 → getTf (pbt' t) d = getTf (pbt t) d)
    (hraise : getTf (pbt t0) d ≤ getTf (pbt' t0) d)
    (hdf : ∀ t ∈ terms, dfOf pbt t ≤ total) :
    docScore total pbt terms d ≤ docScore total pbt' terms d := by
  unfold docScore
  apply List.sum_le_sum
  intro t ht
  have hidf : idfOf total pbt' t = idfOf total pbt t := by
    unfold idfOf
    rw [hdfs t ht]
  rw [hidf]
  have hidf_nonneg : 0 ≤ idfOf total pbt t :=
    le_trans zero_le_one (idfOf_ge_one total pbt t (hdf t ht))
  by_cases he : t = t0
  · subst he
    exact tfContrib_mono _ hidf_nonneg hraise
  · rw [hothers t ht he]

/-- **C9 (witness)**: raising the tf of `("a", doc 1)` from 1 to 2 (df and
total document count fixed) does not decrease the score. -/
theorem docScore_monotone_in_tf_witness :
    (∀ t ∈ ["a"], dfOf (fun u => if u = "a" then [(1, 2)] else []) t =
      dfOf (fun u => if u = "a" then [(1, 1)] else []) t) ∧
    getTf ((fun u => if u = "a" then [(1, 1)] else []) "a") 1 ≤
      getTf ((fun u => if u = "a" then [(1, 2)] else []) "a") 1 ∧
    docScore 3 (fun u => if u = "a" then [(1, 1)] else []) ["a"] 1 ≤
      docScore 3 (fun u => if u = "a" then [(1, 2)] else []) ["a"] 1 :=
  ⟨by decide, by decide,
   docScore_monotone_in_tf 3 (fun u => if u = "a" then [(1, 1)] else [])
     (fun u => if u = "a" then [(1, 2)] else []) ["a"] "a" 1
     (by decide) (by decide) (by decide) (by decide)⟩

lemma getTf_pos_of_mem_keys (l : List (Int × Int)) (d : Int)
    (hd : d ∈ keysFinset l) (htf : ∀ p ∈ l, 1 ≤ p.2) : 1 ≤ getTf l d := by
  unfold keysFinset at hd
  rw [List.mem_toFinset, List.mem_map] at hd
  obtain ⟨p, hp, hpd⟩ := hd
  unfold getTf
  cases hf : l.find? (fun q => q.1 == d) with
  | none =>
    have := List.find?_eq_none.mp hf p hp
    simp [hpd] at this
  | some q =>
    exact htf q (List.mem_of_find?_eq_some hf)

/-- **C10**: when the normalized query repeats a term `t0` (the scoring loop
runs over the term list with duplicates), the candidate set is unchanged,
and each candidate's score grows by exactly one extra copy of `t0`'s
`(1 + ln tf) * idf` contribution — strictly larger than the score of the
deduplicated query, given the index invariants that stored tf values are
`≥ 1` and `df ≤ total_docs`. -/
theorem duplicate_query_term_scoring (total : Nat) (pbt : String → List (Int × Int))
    (terms : List String) (t0 : String) (d : Int)
    (ht0 : t0 ∈ terms)
    (hd : d ∈ candidateSet pbt terms)
    (htf : ∀ p ∈ pbt t0, 1 ≤ p.2)
    (hdf : dfOf pbt t0 ≤ total) :
    candidateSet pbt (t0 :: terms) = candidateSet pbt terms ∧
    docScore total pbt (t0 :: terms) d =
      docScore total pbt terms d + tfContrib (idfOf total pbt t0) (getTf (pbt t0) d) ∧
    docScore total pbt terms d < docScore total pbt (t0 :: terms) d := by
  have hkey : d ∈ keysFinset (pbt t0) :=
    ((mem_candidateSet pbt d terms).mp hd).2 t0 ht0
  have htfd : 1 ≤ getTf (pbt t0) d := getTf_pos_of_mem_keys _ _ hkey htf
  have hsplit : docScore total pbt (t0 :: terms) d =
      docScore total pbt terms d + tfContrib (idfOf total pbt t0) (getTf (pbt t0) d) := by
    unfold docScore
    rw [List.map_cons, List.sum_cons]
    ring
  refine ⟨?_, hsplit, ?_⟩
  · ext d'
    rw [mem_candidateSet, mem_candidateSet]
    constructor
    · rintro ⟨-, hall⟩
      exact ⟨List.ne_nil_of_mem ht0, fun t ht => hall t (List.mem_cons_of_mem t0 ht)⟩
    · rintro ⟨hne, hall⟩
      refine ⟨List.cons_ne_nil t0 terms, fun t ht => ?_⟩
      rcases List.mem_cons.mp ht with rfl | hmem
      · exact hall t ht0
      · exact hall t hmem
  · rw [hsplit]
    have hpos : 0 < tfContrib (idfOf total pbt t0) (getTf (pbt t0) d) := by
      unfold tfContrib
      rw [if_pos (lt_of_lt_of_le Int.zero_lt_one htfd)]
      have h1 := one_le_one_add_log_ofInt (lt_of_lt_of_le Int.zero_lt_one htfd)
      have h2 := idfOf_ge_one total pbt t0 hdf
      nlinarith
    linarith

/-- **C10 (witness)**: for the query terms `["a", "b"]` with `"a"`
duplicated, candidate doc 1 keeps the same candidate set and gets a strictly
larger score. -/
theorem duplicate_query_term_scoring_witness :
    (1 : Int) ∈ candidateSet
        (fun u => if u = "a" then [(1, 1)] else if u = "b" then [(1, 1)] else [])
        ["a", "b"] ∧
    docScore 2 (fun u => if u = "a" then [(1, 1)] else if u = "b" then [(1, 1)] else [])
        ["a", "b"] 1 <
      docScore 2 (fun u => if u = "a" then [(1, 1)] else if u = "b" then [(1, 1)] else [])
        ("a" :: ["a", "b"]) 1 :=
  ⟨by decide,
   (duplicate_query_term_scoring 2
     (fun u => if u = "a" then [(1, 1)] else if u = "b" then [(1, 1)] else [])
     ["a", "b"] "a" 1 (by decide) (by decide) (by decide) (by decide)).2.2⟩

/-- One record of the ranked result list of `and_search`. -/
structure SearchResult where
  doc_id : Int
  url : String
  score : Real

/-- `doc_id_map.get(doc_id, "")`. -/
def lookupUrl (m : List (Int × String)) (d : Int) : String :=
  match m.find? (fun p => p.1 == d) with
  | some p => p.2
  | none => ""

/-- Python's `round(score, 6)`.  (Mathlib's `round` rounds exact halves up
while Python rounds them to even; no claim below depends on score values.) -/
noncomputable def round6 (x : Real) : Real := ((round (x * 1000000) : Int) : Real) / 1000000

/-- The comparator realizing `scored.sort(key=lambda item: (-item[1], item[0]))`:
`a` sorts no later than `b` iff `a` has the larger score, or equal scores and
`a.doc_id ≤ b.doc_id`.  On candidate lists (distinct doc_ids) this key order
is total, so the sorted list is unique — independent of the unspecified
Python `set` iteration order that feeds the sort. -/
noncomputable def scoreLe (a b : Int × Real) : Bool :=
  if b.2 < a.2 then true else if a.2 = b.2 then decide (a.1 ≤ b.1) else false

/-- The result-assembly loop of `and_search`: walk the ranked `(doc_id,
score)` list, skip a document whose URL was already emitted (`seen_urls`),
append otherwise, and stop as soon as `len(results) >= top_k` *after* an
append (`cnt` counts the results emitted so far). -/
noncomputable def collectResults (m : List (Int × String)) (topK : Nat) :
    List (Int × Real) → List String → Nat → List SearchResult
  | [], _, _ => []
  | (d, s) :: rest, seen, cnt =>
    let url := lookupUrl m d
    if url ∈ seen then collectResults m topK rest seen cnt
    else if topK ≤ cnt + 1 then [⟨d, url, round6 s⟩]
    else ⟨d, url, round6 s⟩ :: collectResults m topK rest (url :: seen) (cnt + 1)

/-- `search.py` `and_search`, with the stemmer and the postings loaded for
the query terms (`load_query_postings`) as parameters: normalize the query;
return `[]` if no terms remain, if any term's postings dict is empty, or if
the AND-intersection is empty; otherwise score every candidate, sort by
`(-score, doc_id)`, and assemble the URL-deduplicated, `top_k`-truncated
result list. -/
noncomputable def and_search (stem : String → String) (pbt : String → List (Int × Int))
    (doc_id_map : List (Int × String)) (query : String) (topK : Nat) : List SearchResult :=
  let terms := Srch.normalize_query stem query
  if terms.isEmpty then []
  else if terms.any (fun t => (pbt t).isEmpty) then []
  else
    let cands := candidateSet pbt terms
    if cands = ∅ then []
    else
      let total := doc_id_map.length
      let scored := (cands.sort (· ≤ ·)).map (fun d => (d, docScore total pbt terms d))
      collectResults doc_id_map topK (scored.mergeSort scoreLe) [] 0

lemma and_search_main_branch (stem : String → String) (pbt : String → List (Int × Int))
    (doc_id_map : List (Int × String)) (query : String) (topK : Nat)
    (h1 : ¬(Srch.normalize_query stem query).isEmpty)
    (h2 : ¬(Srch.normalize_query stem query).any (fun t => (pbt t).isEmpty))
    (h3 : candidateSet pbt (Srch.normalize_query stem query) ≠ ∅) :
    and_search stem pbt doc_id_map query topK =
      collectResults doc_id_map topK
        (((candidateSet pbt (Srch.normalize_query stem query)).sort (· ≤ ·)).map
          (fun d => (d, docScore doc_id_map.length pbt
            (Srch.normalize_query stem query) d)) |>.mergeSort scoreLe) [] 0 := by
  unfold and_search
  simp only [Bool.not_eq_true] at h1 h2
  simp [h1, h2, h3]

lemma collectResults_all (m : List (Int × String)) (topK : Nat) :
    ∀ (l : List (Int × Real)) (seen : List String) (cnt : Nat),
      cnt + l.length ≤ topK →
      (∀ p ∈ l, lookupUrl m p.1 ∉ seen) →
      l.Pairwise (fun a b => lookupUrl m a.1 ≠ lookupUrl m b.1) →
      (collectResults m topK l seen cnt).map SearchResult.doc_id = l.map Prod.fst := by
  intro l
  induction l with
  | nil => intro seen cnt _ _ _; rfl
  | cons p rest ih =>
    obtain ⟨d, s⟩ := p
    intro seen cnt hlen hseen hpw
    have hurl : lookupUrl m d ∉ seen := hseen (d, s) (by simp)
    rw [List.pairwise_cons] at hpw
    show (collectResults m topK ((d, s) :: rest) seen cnt).map _ = _
    by_cases hbreak : topK ≤ cnt + 1
    · have hrest : rest = [] := by
        rw [← List.length_eq_zero]
        simp only [List.length_cons] at hlen
        omega
      subst hrest
      simp [collectResults, hurl, hbreak]
    · have hrec := ih (lookupUrl m d :: seen) (cnt + 1)
        (by simp only [List.length_cons] at hlen; omega)
        (fun q hq => by
          simp only [List.mem_cons, not_or]
          exact ⟨fun he => (hpw.1 q hq) he.symm,
                 hseen q (List.mem_cons_of_mem _ hq)⟩)
        hpw.2
      simp [collectResults, hurl, hbreak, hrec]

lemma candidateSet_empty_of_empty_postings (pbt : String → List (Int × Int))
    (terms : List String) (t : String) (ht : t ∈ terms) (hp : pbt t = []) :
    candidateSet pbt terms = ∅ := by
  rw [Finset.eq_empty_iff_forall_not_mem]
  intro d hd
  have := ((mem_candidateSet pbt d terms).mp hd).2 t ht
  rw [hp] at this
  simp [keysFinset] at this

lemma collectResults_doc_mem (m : List (Int × String)) (topK : Nat) :
    ∀ (l : List (Int × Real)) (seen : List String) (cnt : Nat) (r : SearchResult),
      r ∈ collectResults m topK l seen cnt → r.doc_id ∈ l.map Prod.fst := by
  intro l
  induction l with
  | nil => intro seen cnt r hr; exact absurd hr (List.not_mem_nil r)
  | cons p rest ih =>
    obtain ⟨d, s⟩ := p
    intro seen cnt r hr
    simp only [collectResults] at hr
    by_cases hseen : lookupUrl m d ∈ seen
    · rw [if_pos hseen] at hr
      exact List.mem_cons_of_mem _ (ih seen cnt r hr)
    · rw [if_neg hseen] at hr
      by_cases hbreak : topK ≤ cnt + 1
      · rw [if_pos hbreak] at hr
        rw [List.mem_singleton.mp hr]
        simp
      · rw [if_neg hbreak] at hr
        rcases List.mem_cons.mp hr with rfl | hmem
        · simp
        · exact List.mem_cons_of_mem _ (ih _ _ r hmem)

/-- **C4 (amended)**: the short-circuit half of the claim holds — a query
term with an empty postings dict forces an empty result list.  The returned
doc_ids do not equal the AND-intersection in general, because of the two
post-filters `and_search` applies (URL deduplication and `top_k`
truncation): they always form a *subset* of the intersection, and they equal
the intersection whenever the doc_id → URL map is injective on the candidate
set and the candidate count is at most `top_k`. -/
theorem and_search_results (stem : String → String) (pbt : String → List (Int × Int))
    (doc_id_map : List (Int × String)) (query : String) (topK : Nat) :
    (∀ t ∈ Srch.normalize_query stem query, pbt t = [] →
      and_search stem pbt doc_id_map query topK = []) ∧
    (∀ r ∈ and_search stem pbt doc_id_map query topK,
      r.doc_id ∈ candidateSet pbt (Srch.normalize_query stem query)) ∧
    ((candidateSet pbt (Srch.normalize_query stem query)).card ≤ topK →
     (∀ d1 ∈ candidateSet pbt (Srch.normalize_query stem query),
      ∀ d2 ∈ candidateSet pbt (Srch.normalize_query stem query),
        lookupUrl doc_id_map d1 = lookupUrl doc_id_map d2 → d1 = d2) →
     ((and_search stem pbt doc_id_map query topK).map SearchResult.doc_id).toFinset =
       candidateSet pbt (Srch.normalize_query stem query)) := by
  refine ⟨?_, ?_, ?_⟩
  · intro t ht hp
    unfold and_search
    have hne : ¬(Srch.normalize_query stem query).isEmpty := by
      rw [List.isEmpty_iff]
      exact List.ne_nil_of_mem ht
    have hany : (Srch.normalize_query stem query).any (fun u => (pbt u).isEmpty) := by
      rw [List.any_eq_true]
      exact ⟨t, ht, by simp [hp]⟩
    simp [hne, hany]
  · intro r hr
    by_cases h1 : (Srch.normalize_query stem query).isEmpty
    · unfold and_search at hr
      simp [h1] at hr
    · by_cases h2 : (Srch.normalize_query stem query).any (fun t => (pbt t).isEmpty)
      · unfold and_search at hr
        simp only [Bool.not_eq_true] at h1
        simp [h1, h2] at hr
      · by_cases h3 : candidateSet pbt (Srch.normalize_query stem query) = ∅
        · unfold and_search at hr
          simp only [Bool.not_eq_true] at h1 h2
          simp [h1, h2, h3] at hr
        · rw [and_search_main_branch stem pbt doc_id_map query topK h1 h2 h3] at hr
          have hmem := collectResults_doc_mem doc_id_map topK _ [] 0 r hr
          rw [List.mem_map] at hmem
          obtain ⟨p, hp, hpd⟩ := hmem
          rw [List.mem_mergeSort, List.mem_map] at hp
          obtain ⟨d, hd, rfl⟩ := hp
          rw [← hpd]
          exact (Finset.mem_sort _).mp hd
  · intro hcard hinj
    by_cases h1 : (Srch.normalize_query stem query).isEmpty
    · have hterms : Srch.normalize_query stem query = [] := List.isEmpty_iff.mp h1
      unfold and_search
      rw [hterms]
      simp [candidateSet]
    · by_cases h2 : (Srch.normalize_query stem query).any (fun t => (pbt t).isEmpty)
      · obtain ⟨t, ht, hp⟩ := List.any_eq_true.mp h2
        have hp' : pbt t = [] := by simpa using hp
        have hempty := candidateSet_empty_of_empty_postings pbt _ t ht hp'
        unfold and_search
        simp [h2, hempty]
      · by_cases h3 : candidateSet pbt (Srch.normalize_query stem query) = ∅
        · unfold and_search
          simp [h2, h3]
        · rw [and_search_main_branch stem pbt doc_id_map query topK h1 h2 h3]
          set terms := Srch.normalize_query stem query
          set cands := candidateSet pbt terms with hcandsdef
          set scored := (cands.sort (· ≤ ·)).map
            (fun d => (d, docScore doc_id_map.length pbt terms d)) with hscored
          have hperm : (scored.mergeSort scoreLe).Perm scored :=
            List.mergeSort_perm scored scoreLe
          have hfst : scored.map Prod.fst = cands.sort (· ≤ ·) := by
            rw [hscored, List.map_map]
            exact List.map_id _
          have hmemc : ∀ p ∈ scored, p.1 ∈ cands := by
            intro p hp
            rw [hscored] at hp
            obtain ⟨d, hd, rfl⟩ := List.mem_map.mp hp
            exact (Finset.mem_sort _).mp hd
          have hpw : scored.Pairwise
              (fun a b => lookupUrl doc_id_map a.1 ≠ lookupUrl doc_id_map b.1) := by
            rw [hscored]
            rw [List.pairwise_map]
            have hnodup : (cands.sort (· ≤ ·)).Nodup := Finset.sort_nodup _ _
            refine hnodup.imp_of_mem ?_
            intro a b ha hb hne heq
            exact hne (hinj a ((Finset.mem_sort _).mp ha) b ((Finset.mem_sort _).mp hb) heq)
          have hpw' := (hperm.pairwise_iff (fun h heq => h heq.symm)).mpr hpw
          have hlen : 0 + (scored.mergeSort scoreLe).length ≤ topK := by
            rw [Nat.zero_add, List.length_mergeSort, hscored, List.length_map,
              Finset.length_sort]
            exact hcard
          have hall := collectResults_all doc_id_map topK (scored.mergeSort scoreLe) [] 0
            hlen (by simp) hpw'
          rw [hall]
          have hfin : ((scored.mergeSort scoreLe).map Prod.fst).toFinset
              = (scored.map Prod.fst).toFinset :=
            List.toFinset_eq_of_perm _ _ (hperm.map Prod.fst)
          rw [hfin, hfst, Finset.sort_toFinset]

/-- Loaded postings of the two-term query used in the C4 instances below:
both `"a"` and `"b"` post in docs 1 and 2. -/
def cxPbt : String → List (Int × Int) :=
  fun u => if u = "a" then [(1, 1), (2, 1)] else if u = "b" then [(1, 1), (2, 1)] else []

/-- A doc_id map sending docs 1 and 2 to the *same* URL. -/
def cxMap : List (Int × String) := [(1, "u"), (2, "u")]

/-- Postings where `"a"` and `"b"` intersect exactly in doc 1. -/
def cx4Pbt : String → List (Int × Int) :=
  fun u => if u = "a" then [(1, 1)] else if u = "b" then [(1, 2)] else []

/-- **C4 (witness)**: a term with empty postings short-circuits to `[]`, and
with an injective URL map and at most `top_k` candidates the result doc_ids
are exactly the intersection. -/
theorem and_search_results_witness :
    and_search id cx4Pbt [(1, "u")] "a z" 5 = [] ∧
    ((and_search id cx4Pbt [(1, "u")] "a b" 5).map SearchResult.doc_id).toFinset =
      candidateSet cx4Pbt (Srch.normalize_query id "a b") :=
  ⟨(and_search_results id cx4Pbt [(1, "u")] "a z" 5).1 "z" (by decide) rfl,
   (and_search_results id cx4Pbt [(1, "u")] "a b" 5).2.2 (by decide) (by decide)⟩

lemma collectResults_skip_seen (m : List (Int × String)) (topK : Nat) :
    ∀ (l : List (Int × Real)) (seen : List String) (cnt : Nat),
      (∀ p ∈ l, lookupUrl m p.1 ∈ seen) →
      collectResults m topK l seen cnt = [] := by
  intro l
  induction l with
  | nil => intro seen cnt _; rfl
  | cons p rest ih =>
    obtain ⟨d, s⟩ := p
    intro seen cnt hall
    have hd : lookupUrl m d ∈ seen := hall (d, s) (List.mem_cons_self _ _)
    simp only [collectResults]
    rw [if_pos hd]
    exact ih seen cnt (fun q hq => hall q (List.mem_cons_of_mem _ hq))

lemma collectResults_one_url (m : List (Int × String)) (u : String)
    (l : List (Int × Real)) (hne : l ≠ [])
    (hall : ∀ p ∈ l, lookupUrl m p.1 = u) :
    (collectResults m 5 l [] 0).length = 1 := by
  cases l with
  | nil => exact absurd rfl hne
  | cons p rest =>
    obtain ⟨d, s⟩ := p
    have hu : lookupUrl m d = u := hall (d, s) (List.mem_cons_self _ _)
    have hrest : collectResults m 5 rest [lookupUrl m d] 1 = [] := by
      apply collectResults_skip_seen
      intro q hq
      rw [hall q (List.mem_cons_of_mem _ hq), ← hu]
      exact List.mem_singleton.mpr rfl
    simp [collectResults, hrest]

/-- **C4 (counterexample)**: for the two-term query `"a b"` whose posting
key sets both equal `{1, 2}` — so the intersection has two doc_ids — but
whose two documents share one URL, `and_search` returns a single result:
the result doc_ids are *not* the full intersection, refuting the claimed
set equality (URL deduplication, and likewise `top_k` truncation, shrink
the result set). -/
theorem and_search_intersection_cx :
    candidateSet cxPbt (Srch.normalize_query id "a b") =
      keysFinset (cxPbt "a") ∩ keysFinset (cxPbt "b") ∧
    (keysFinset (cxPbt "a") ∩ keysFinset (cxPbt "b")).card = 2 ∧
    ((and_search id cxPbt cxMap "a b" 5).map SearchResult.doc_id).toFinset ≠
      keysFinset (cxPbt "a") ∩ keysFinset (cxPbt "b") := by
  refine ⟨by decide, by decide, ?_⟩
  rw [and_search_main_branch id cxPbt cxMap "a b" 5 (by decide) (by decide) (by decide)]
  set terms := Srch.normalize_query id "a b" with hterms
  set cands := candidateSet cxPbt terms with hcands
  set L := ((cands.sort (· ≤ ·)).map
    (fun d => (d, docScore cxMap.length cxPbt terms d))).mergeSort scoreLe with hL
  have hLne : L ≠ [] := by
    have : L.length = 2 := by
      rw [hL, List.length_mergeSort, List.length_map, Finset.length_sort]
      show cands.card = 2
      rw [hcands, hterms]
      decide
    intro hnil
    rw [hnil] at this
    simp at this
  have hall : ∀ p ∈ L, lookupUrl cxMap p.1 = "u" := by
    intro p hp
    rw [hL, List.mem_mergeSort, List.mem_map] at hp
    obtain ⟨d, hd, rfl⟩ := hp
    have hdc : d ∈ cands := (Finset.mem_sort _).mp hd
    have hd12 : d = 1 ∨ d = 2 := by
      have h2 : cands = ({1, 2} : Finset Int) := by
        rw [hcands, hterms]
        decide
      rw [h2] at hdc
      simpa using hdc
    rcases hd12 with rfl | rfl <;> decide
  have hlen := collectResults_one_url cxMap "u" L hLne hall
  intro hfineq
  have hcard2 : (keysFinset (cxPbt "a") ∩ keysFinset (cxPbt "b")).card = 2 := by decide
  have hle := List.toFinset_card_le
    ((collectResults cxMap 5 L [] 0).map SearchResult.doc_id)
  rw [hfineq, List.length_map, hlen, hcard2] at hle
  omega
